import Mathlib

/-!
# Weapon table: derivation pipeline and UI state of `src/App.jsx`

A shallow embedding of the pure part of the React component `App`:

* `calcDps`, the filter/sort pipeline `list`, the chart stage `chartData`;
* the state updates `handleHeaderClick`, `toggleCompare`, `clearCompare`
  and the header indicator `arrow`.

A finite JavaScript number is the rational it denotes (`ℚ`); the one
arithmetic result whose value is read, the product inside `calcDps`, is
rounded to binary64 as the language does (`roundBinary64`), while the
differences formed by the comparators are read for their sign only, which
rounding does not change.  Strings are Lean strings read as sequences of
characters.  The catalog `weapons` is imported by the component from a data
module, so it is a parameter here.
-/

namespace WeaponTable

/-! ## Data model -/

/-- The `damage` object of a weapon record. -/
structure Damage where
  head : ℚ
  body : ℚ
  leg : ℚ
  deriving DecidableEq

/-- A weapon record of the catalog, with the fields the component reads. -/
structure Weapon where
  id : String
  name : String
  category : String
  cost : ℚ
  fireRate : ℚ
  magazine : ℚ
  damage : Damage
  deriving DecidableEq

/-- The two values the state `sortOrder` takes: `"asc"` and `"desc"`. -/
inductive SortOrder where
  | asc
  | desc
  deriving DecidableEq

/-- An object handed to the bar chart: `{ id, name, category, dps }`. -/
structure ChartEntry where
  id : String
  name : String
  category : String
  dps : ℤ
  deriving DecidableEq

/-! ## Built-ins of the language used by the component -/

/-- `Math.round` on the value of a finite number: the nearest integer, a tie
going to the larger one (towards `+∞`). -/
def mathRound (x : ℚ) : ℤ :=
  if x - (Rat.floor x : ℚ) < 1 / 2 then Rat.floor x else Rat.floor x + 1

/-- Bit counting with fuel: the number of halvings that bring `n` below 2. -/
def bitsAux : ℕ → ℕ → ℕ
  | 0, _ => 0
  | fuel + 1, n => if n < 2 then 0 else bitsAux fuel (n / 2) + 1

/-- The largest `k` with `2 ^ k ≤ n`, for `n > 0`. -/
def floorLog2 (n : ℕ) : ℕ :=
  bitsAux n n

/-- The test `2 ^ k ≤ n / d` on naturals, for an integer exponent `k`. -/
def pow2Le (k : ℤ) (n d : ℕ) : Bool :=
  if 0 ≤ k then decide (2 ^ k.toNat * d ≤ n) else decide (d ≤ n * 2 ^ (-k).toNat)

/-- The binary exponent of `n / d`, for positive `n` and `d`: the `e` with
`2 ^ e ≤ n / d < 2 ^ (e + 1)`. -/
def binade (n d : ℕ) : ℤ :=
  let k : ℤ := (floorLog2 n : ℤ) - (floorLog2 d : ℤ)
  if pow2Le k n d then k else k - 1

/-- The natural nearest to `n / d`, a tie going to the even one. -/
def roundHalfEven (n d : ℕ) : ℕ :=
  let t := n / d
  let r := n % d
  if 2 * r < d then t
  else if d < 2 * r then t + 1
  else if t % 2 = 0 then t else t + 1

/-- Rounding of an exact result to a binary64 number, as every arithmetic
operator of the language does: to the nearest multiple of `2 ^ (e - 52)`,
where `e` is the binary exponent of the result and at least `-1022`, a tie
going to the even multiple.  Results of magnitude `2 ^ 1024` and beyond, which
the language turns into `Infinity`, are outside what this function models. -/
def roundBinary64 (x : ℚ) : ℚ :=
  if x = 0 then 0
  else
    let n := x.num.natAbs
    let d := x.den
    let q : ℤ := max (binade n d) (-1022) - 52
    let mag : ℚ :=
      if 0 ≤ q then ((roundHalfEven n (d * 2 ^ q.toNat) * 2 ^ q.toNat : ℕ) : ℚ)
      else ((roundHalfEven (n * 2 ^ (-q).toNat) d : ℕ) : ℚ) / ((2 ^ (-q).toNat : ℕ) : ℚ)
    if x < 0 then -mag else mag

/-- White space and line terminators removed by `String.prototype.trim`. -/
def isWhiteSpace (c : Char) : Bool :=
  let n := c.toNat
  n = 0x09 || n = 0x0A || n = 0x0B || n = 0x0C || n = 0x0D || n = 0x20 || n = 0xA0
    || n = 0x1680 || (0x2000 ≤ n && n ≤ 0x200A) || n = 0x2028 || n = 0x2029
    || n = 0x202F || n = 0x205F || n = 0x3000 || n = 0xFEFF

/-- `String.prototype.trim`: white space dropped at both ends. -/
def trim (s : String) : String :=
  String.mk ((s.data.dropWhile isWhiteSpace).reverse.dropWhile isWhiteSpace).reverse

/-- `String.prototype.toLowerCase`, character by character, as the built-in
acts on ASCII text: the letters `A`-`Z` are mapped to `a`-`z` and every
other character is kept. -/
def toLowerCase (s : String) : String :=
  String.mk (s.data.map Char.toLower)

/-- `String.prototype.includes`: `q` occurs in `s` as a contiguous run. -/
def includes (s q : String) : Bool :=
  s.data.tails.any (fun t => q.data.isPrefixOf t)

/-- Truthiness of a string: only the empty string is falsy. -/
def truthy (s : String) : Bool :=
  s.data ≠ []

/-- `Array.prototype.sort(cmp)`: the stable sort the language prescribes,
`a` staying in front of `b` when `cmp(a, b) ≤ 0`; computed by insertion. -/
def arraySort {α : Type} (cmp : α → α → ℚ) (xs : List α) : List α :=
  xs.insertionSort (fun a b => cmp a b ≤ 0)

/-- `Array.prototype.slice(start, end)` with the relative-index rules for
negative arguments. -/
def slice {α : Type} (xs : List α) (start stop : ℤ) : List α :=
  let len : ℤ := xs.length
  let k := if start < 0 then max (len + start) 0 else min start len
  let final := if stop < 0 then max (len + stop) 0 else min stop len
  (xs.drop k.toNat).take (final - k).toNat

/-! ## Derivation pipeline -/

/-- `calcDps(bodyDamage, fireRate) = Math.round(bodyDamage * fireRate)`, the
product being the binary64 product of the two numbers. -/
def calcDps (bodyDamage fireRate : ℚ) : ℤ :=
  mathRound (roundBinary64 (bodyDamage * fireRate))

/-- The `switch (sortColumn)` of the comparator: the pair `(av, bv)` it
assigns, or `none` for the `default` branch. -/
def sortValues (sortColumn : String) (a b : Weapon) : Option (ℚ × ℚ) :=
  if sortColumn = "cost" then some (a.cost, b.cost)
  else if sortColumn = "fireRate" then some (a.fireRate, b.fireRate)
  else if sortColumn = "magazine" then some (a.magazine, b.magazine)
  else if sortColumn = "dps" then
    some ((calcDps a.damage.body a.fireRate : ℚ), (calcDps b.damage.body b.fireRate : ℚ))
  else if sortColumn = "headDamage" then some (a.damage.head, b.damage.head)
  else if sortColumn = "bodyDamage" then some (a.damage.body, b.damage.body)
  else if sortColumn = "legDamage" then some (a.damage.leg, b.damage.leg)
  else none

/-- The comparator passed to `sorted.sort`. -/
def comparator (sortColumn : String) (sortOrder : SortOrder) (a b : Weapon) : ℚ :=
  match sortValues sortColumn a b with
  | none => 0
  | some (av, bv) => if sortOrder = SortOrder.asc then av - bv else bv - av

/-- The sort key of a record under `sortColumn`: the value the comparator
reads for one of the seven columns (`dps` through `calcDps`, the damage
columns through `damage.head`, `damage.body`, `damage.leg`), and `0` when no
column applies (`null`, or a name of the `default` branch, where every pair
compares equal). -/
def sortKey (sortColumn : Option String) (w : Weapon) : ℚ :=
  match sortColumn with
  | none => 0
  | some c =>
    if c = "cost" then w.cost
    else if c = "fireRate" then w.fireRate
    else if c = "magazine" then w.magazine
    else if c = "dps" then (calcDps w.damage.body w.fireRate : ℚ)
    else if c = "headDamage" then w.damage.head
    else if c = "bodyDamage" then w.damage.body
    else if c = "legDamage" then w.damage.leg
    else 0

/-- The category stage of `list`. -/
def filterCategory (weapons : List Weapon) (category : String) : List Weapon :=
  if category = "All" then weapons
  else weapons.filter (fun w => decide (w.category = category))

/-- The filter stage of `list`: category, then name search. -/
def filtered (weapons : List Weapon) (category query : String) : List Weapon :=
  let q := toLowerCase (trim query)
  if truthy q then
    (filterCategory weapons category).filter (fun w => includes (toLowerCase w.name) q)
  else filterCategory weapons category

/-- The memoised value `list`: the filtered catalog, sorted when a column is
selected (`sortColumn` is `null` or a string). -/
def list (weapons : List Weapon) (category query : String)
    (sortColumn : Option String) (sortOrder : SortOrder) : List Weapon :=
  match sortColumn with
  | none => filtered weapons category query
  | some c =>
    if truthy c then arraySort (comparator c sortOrder) (filtered weapons category query)
    else filtered weapons category query

/-- The object built for one record inside `chartData`. -/
def chartEntry (w : Weapon) : ChartEntry :=
  { id := w.id, name := w.name, category := w.category,
    dps := calcDps w.damage.body w.fireRate }

/-- The memoised value `chartData` for a displayed list and `chartTopN`. -/
def chartData (list : List Weapon) (chartTopN : ℤ) : List ChartEntry :=
  let data := arraySort (fun a b => ((b.dps - a.dps : ℤ) : ℚ)) (list.map chartEntry)
  slice data 0 (max 1 (min chartTopN (data.length : ℤ)))

/-! ## UI state -/

/-- The pair of states `sortColumn`, `sortOrder`. -/
structure SortState where
  sortColumn : Option String
  sortOrder : SortOrder
  deriving DecidableEq

/-- The initial sort state: `useState(null)`, `useState("asc")`. -/
def initialSort : SortState :=
  { sortColumn := none, sortOrder := SortOrder.asc }

/-- The update `prev === "asc" ? "desc" : "asc"`. -/
def flipOrder : SortOrder → SortOrder
  | SortOrder.asc => SortOrder.desc
  | SortOrder.desc => SortOrder.asc

/-- `handleHeaderClick(column)` as a function on the sort state. -/
def handleHeaderClick (column : String) (s : SortState) : SortState :=
  if s.sortColumn = some column then { s with sortOrder := flipOrder s.sortOrder }
  else { sortColumn := some column, sortOrder := SortOrder.asc }

/-- `arrow(column)`: the indicator appended to a header. -/
def arrow (s : SortState) (column : String) : String :=
  if s.sortColumn ≠ some column then ""
  else if s.sortOrder = SortOrder.asc then " ▲" else " ▼"

/-- `toggleCompare(id)`: the functional update given to `setCompareIds`. -/
def toggleCompare (id : String) (prev : List String) : List String :=
  if prev.contains id then prev.filter (fun x => decide (x ≠ id))
  else if prev.length ≥ 2 then prev
  else prev ++ [id]

/-- `clearCompare()`: `setCompareIds([])`. -/
def clearCompare (_prev : List String) : List String :=
  []

/-- A user action on the comparison selection. -/
inductive CompareAction where
  | toggle (id : String)
  | clear

/-- One action applied to `compareIds`. -/
def applyCompare (ids : List String) : CompareAction → List String
  | CompareAction.toggle id => toggleCompare id ids
  | CompareAction.clear => clearCompare ids

/-- The state `compareIds` after a sequence of actions from `useState([])`. -/
def runCompare (actions : List CompareAction) : List String :=
  actions.foldl applyCompare []

/-! ## Records of the scenarios -/

/-- The record of the DPS scenario: body damage 26, fire rate 6.75. -/
def classic : Weapon :=
  { id := "1", name := "Classic", category := "Sidearm", cost := 0, fireRate := 27 / 4,
    magazine := 12, damage := { head := 78, body := 26, leg := 22 } }

/-- A rifle named "Phantom". -/
def phantom : Weapon :=
  { id := "phantom", name := "Phantom", category := "Rifle", cost := 2900, fireRate := 11,
    magazine := 30, damage := { head := 156, body := 39, leg := 33 } }

/-- A sniper named "Phantom-X". -/
def phantomX : Weapon :=
  { id := "phantom-x", name := "Phantom-X", category := "Sniper", cost := 4700,
    fireRate := 3 / 4, magazine := 5, damage := { head := 255, body := 150, leg := 120 } }

/-- A record with DPS 50 and cost 200. -/
def tieA : Weapon :=
  { id := "a", name := "Alpha", category := "SMG", cost := 200, fireRate := 5,
    magazine := 20, damage := { head := 30, body := 10, leg := 8 } }

/-- A record with DPS 50 and cost 100. -/
def tieB : Weapon :=
  { id := "b", name := "Bravo", category := "SMG", cost := 100, fireRate := 10,
    magazine := 25, damage := { head := 15, body := 5, leg := 4 } }

/-- The number written `0.7`: the binary64 value nearest to 7/10. -/
def number07 : ℚ :=
  3152519739159347 / 2 ^ 52

/-- The number written `4.1`: the binary64 value nearest to 41/10. -/
def number41 : ℚ :=
  4616189618054758 / 2 ^ 50

/-! ## Comparison selection -/

theorem toggleCompare_length_le (id : String) (prev : List String) (h : prev.length ≤ 2) :
    (toggleCompare id prev).length ≤ 2 := by
  unfold toggleCompare
  split_ifs with h1 h2
  · exact le_trans (List.length_filter_le _ _) h
  · exact h
  · simp only [List.length_append, List.length_singleton]
    omega

theorem toggleCompare_nodup (id : String) (prev : List String) (h : prev.Nodup) :
    (toggleCompare id prev).Nodup := by
  unfold toggleCompare
  split_ifs with h1 h2
  · exact h.filter _
  · exact h
  · have hid : id ∉ prev := by simpa using h1
    exact List.Nodup.append h (List.nodup_singleton id) (by simpa using hid)

theorem applyCompare_invariant (ids : List String) (a : CompareAction)
    (h : ids.length ≤ 2 ∧ ids.Nodup) :
    (applyCompare ids a).length ≤ 2 ∧ (applyCompare ids a).Nodup := by
  cases a with
  | toggle id => exact ⟨toggleCompare_length_le id ids h.1, toggleCompare_nodup id ids h.2⟩
  | clear => simp [applyCompare, clearCompare]

theorem foldl_applyCompare_invariant (actions : List CompareAction) :
    ∀ ids : List String, (ids.length ≤ 2 ∧ ids.Nodup) →
      ((actions.foldl applyCompare ids).length ≤ 2 ∧ (actions.foldl applyCompare ids).Nodup) := by
  induction actions with
  | nil => intro ids h; simpa using h
  | cons a rest ih =>
    intro ids h
    simpa [List.foldl_cons] using ih (applyCompare ids a) (applyCompare_invariant ids a h)

/-- C6: `toggleCompare id` is total; it removes every occurrence of `id` when
`id` is selected (whatever the length), leaves a selection of two or more
untouched when `id` is not selected, and appends `id` otherwise; from `[]`
the toggles "a", "b", "c", "a" give `["a"]`, `["a","b"]`, `["a","b"]`, `["b"]`. -/
theorem toggleCompare_spec (id : String) (prev : List String) :
    (id ∈ prev → toggleCompare id prev = prev.filter (fun x => decide (x ≠ id))
        ∧ id ∉ toggleCompare id prev) ∧
    (id ∉ prev → 2 ≤ prev.length → toggleCompare id prev = prev) ∧
    (id ∉ prev → prev.length < 2 → toggleCompare id prev = prev ++ [id]) ∧
    toggleCompare "a" [] = ["a"] ∧
    toggleCompare "b" ["a"] = ["a", "b"] ∧
    toggleCompare "c" ["a", "b"] = ["a", "b"] ∧
    toggleCompare "a" ["a", "b"] = ["b"] := by
  refine ⟨?_, ?_, ?_, by decide, by decide, by decide, by decide⟩
  · intro h
    have h2 : toggleCompare id prev = prev.filter (fun x => decide (x ≠ id)) := by
      unfold toggleCompare
      rw [if_pos (by simpa using h)]
    refine ⟨h2, ?_⟩
    rw [h2]
    simp [List.mem_filter]
  · intro h hlen
    unfold toggleCompare
    rw [if_neg (by simpa using h), if_pos hlen]
  · intro h hlen
    unfold toggleCompare
    rw [if_neg (by simpa using h), if_neg (by omega)]

/-- C7: after any finite sequence of `toggleCompare` and `clearCompare` calls
from the initial empty selection, `compareIds` has at most two entries and
no duplicate. -/
theorem compareIds_invariant (actions : List CompareAction) :
    (runCompare actions).length ≤ 2 ∧ (runCompare actions).Nodup :=
  foldl_applyCompare_invariant actions [] ⟨by simp, List.nodup_nil⟩

/-! ## Header sort -/

/-- C8: `handleHeaderClick column` flips the order when `column` is the active
column and selects `column` ascending otherwise; three clicks on one column
from the unsorted state give ascending, descending, ascending; and `arrow`
is non-empty exactly on the active column. -/
theorem handleHeaderClick_spec (s : SortState) (c d : String) :
    (s.sortColumn = some c →
        handleHeaderClick c s = { sortColumn := s.sortColumn, sortOrder := flipOrder s.sortOrder }) ∧
    (s.sortColumn ≠ some c →
        handleHeaderClick c s = { sortColumn := some c, sortOrder := SortOrder.asc }) ∧
    handleHeaderClick c initialSort = { sortColumn := some c, sortOrder := SortOrder.asc } ∧
    handleHeaderClick c (handleHeaderClick c initialSort)
        = { sortColumn := some c, sortOrder := SortOrder.desc } ∧
    handleHeaderClick c (handleHeaderClick c (handleHeaderClick c initialSort))
        = { sortColumn := some c, sortOrder := SortOrder.asc } ∧
    (arrow s d ≠ "" ↔ s.sortColumn = some d) := by
  refine ⟨?_, ?_, ?_, ?_, ?_, ?_⟩
  · intro h
    simp [handleHeaderClick, h]
  · intro h
    simp [handleHeaderClick, h]
  · simp [handleHeaderClick, initialSort]
  · simp [handleHeaderClick, initialSort, flipOrder]
  · simp [handleHeaderClick, initialSort, flipOrder]
  · unfold arrow
    by_cases h : s.sortColumn = some d
    · cases hs : s.sortOrder <;> simp [h]
    · simp [h]

/-! ## DPS -/

theorem mathRound_eq_floor (x : ℚ) : mathRound x = ⌊x + 1 / 2⌋ := by
  have hfl : (Rat.floor x) = ⌊x⌋ := rfl
  have h1 : (⌊x⌋ : ℚ) ≤ x := Int.floor_le x
  have h2 : x < (⌊x⌋ : ℚ) + 1 := Int.lt_floor_add_one x
  unfold mathRound
  rw [hfl]
  split_ifs with h
  · symm
    rw [Int.floor_eq_iff]
    constructor <;> linarith
  · symm
    rw [Int.floor_eq_iff]
    push_cast
    constructor <;> linarith

theorem mathRound_nearest (x : ℚ) (n : ℤ) : |x - (mathRound x : ℚ)| ≤ |x - (n : ℚ)| := by
  rw [mathRound_eq_floor]
  have h1 : ((⌊x + 1 / 2⌋ : ℤ) : ℚ) ≤ x + 1 / 2 := Int.floor_le _
  have h2 : x + 1 / 2 < ((⌊x + 1 / 2⌋ : ℤ) : ℚ) + 1 := Int.lt_floor_add_one _
  rcases le_or_lt n ⌊x + 1 / 2⌋ with h | h
  · rcases eq_or_lt_of_le h with h | h
    · rw [h]
    · have h3 : (n : ℚ) + 1 ≤ ((⌊x + 1 / 2⌋ : ℤ) : ℚ) := by exact_mod_cast h
      rw [abs_le]
      constructor
      · have := le_abs_self (x - (n : ℚ)); linarith
      · have := le_abs_self (x - (n : ℚ)); linarith
  · have h3 : ((⌊x + 1 / 2⌋ : ℤ) : ℚ) + 1 ≤ (n : ℚ) := by exact_mod_cast h
    rw [abs_le]
    constructor
    · have := neg_le_abs (x - (n : ℚ)); linarith
    · have := neg_le_abs (x - (n : ℚ)); linarith

theorem mathRound_tie (x : ℚ) (n : ℤ) (h : |x - (n : ℚ)| = |x - (mathRound x : ℚ)|) :
    n ≤ mathRound x := by
  rw [mathRound_eq_floor] at h ⊢
  have h1 : ((⌊x + 1 / 2⌋ : ℤ) : ℚ) ≤ x + 1 / 2 := Int.floor_le _
  have h2 : x + 1 / 2 < ((⌊x + 1 / 2⌋ : ℤ) : ℚ) + 1 := Int.lt_floor_add_one _
  by_contra hlt
  push_neg at hlt
  have h3 : ((⌊x + 1 / 2⌋ : ℤ) : ℚ) + 1 ≤ (n : ℚ) := by exact_mod_cast hlt
  have h4 : |x - (n : ℚ)| = (n : ℚ) - x := by
    rw [abs_sub_comm]; exact abs_of_nonneg (by linarith)
  have h5 := neg_le_abs (x - ((⌊x + 1 / 2⌋ : ℤ) : ℚ))
  have h6 := le_abs_self (x - ((⌊x + 1 / 2⌋ : ℤ) : ℚ))
  have h7 : |x - ((⌊x + 1 / 2⌋ : ℤ) : ℚ)| ≤ 1 / 2 := by
    rw [abs_le]; constructor <;> linarith
  linarith

/-! ## Binary64 rounding -/

theorem bitsAux_spec : ∀ (fuel n : ℕ), 0 < n → n ≤ fuel →
    2 ^ bitsAux fuel n ≤ n ∧ n < 2 ^ (bitsAux fuel n + 1) := by
  intro fuel
  induction fuel with
  | zero => intro n h1 h2; omega
  | succ fuel ih =>
    intro n h1 h2
    unfold bitsAux
    by_cases h : n < 2
    · rw [if_pos h]
      have : n = 1 := by omega
      subst this
      simp
    · rw [if_neg h]
      have hdiv : 0 < n / 2 := Nat.div_pos (by omega) (by decide)
      have hle : n / 2 ≤ fuel := by omega
      obtain ⟨l, u⟩ := ih (n / 2) hdiv hle
      rw [pow_succ, pow_succ] at *
      constructor <;> omega

theorem floorLog2_spec (n : ℕ) (h : 0 < n) :
    2 ^ floorLog2 n ≤ n ∧ n < 2 ^ (floorLog2 n + 1) :=
  bitsAux_spec n n h (le_refl n)

theorem pow2Le_iff (k : ℤ) (n d : ℕ) (hd : 0 < d) :
    pow2Le k n d = true ↔ (2 : ℚ) ^ k ≤ (n : ℚ) / d := by
  have hdq : (0 : ℚ) < d := by exact_mod_cast hd
  unfold pow2Le
  by_cases hk : 0 ≤ k
  · rw [if_pos hk, decide_eq_true_eq, le_div_iff₀ hdq]
    obtain ⟨j, rfl⟩ := Int.eq_ofNat_of_zero_le hk
    rw [Int.toNat_natCast, zpow_natCast]
    constructor
    · intro h; exact_mod_cast h
    · intro h; exact_mod_cast h
  · rw [if_neg hk, decide_eq_true_eq, le_div_iff₀ hdq]
    have hk' : 0 ≤ -k := by omega
    obtain ⟨j, hj⟩ := Int.eq_ofNat_of_zero_le hk'
    have hkj : k = -(j : ℤ) := by omega
    rw [hj, Int.toNat_natCast, hkj, zpow_neg, zpow_natCast]
    have hp : (0 : ℚ) < 2 ^ j := by positivity
    rw [inv_mul_le_iff₀ hp]
    constructor
    · intro h
      have h' : ((d : ℕ) : ℚ) ≤ ((n * 2 ^ j : ℕ) : ℚ) := by exact_mod_cast h
      push_cast at h'
      linarith
    · intro h
      have h' : ((d : ℕ) : ℚ) ≤ ((n * 2 ^ j : ℕ) : ℚ) := by
        push_cast
        linarith
      exact_mod_cast h'

theorem binade_spec (n d : ℕ) (hn : 0 < n) (hd : 0 < d) :
    (2 : ℚ) ^ binade n d ≤ (n : ℚ) / d ∧ (n : ℚ) / d < (2 : ℚ) ^ (binade n d + 1) := by
  have hdq : (0 : ℚ) < d := by exact_mod_cast hd
  obtain ⟨hn1, hn2⟩ := floorLog2_spec n hn
  obtain ⟨hd1, hd2⟩ := floorLog2_spec d hd
  have hn1q : (2 : ℚ) ^ (floorLog2 n) ≤ n := by exact_mod_cast hn1
  have hn2q : (n : ℚ) < 2 ^ (floorLog2 n + 1) := by exact_mod_cast hn2
  have hd1q : (2 : ℚ) ^ (floorLog2 d) ≤ d := by exact_mod_cast hd1
  have hd2q : (d : ℚ) < 2 ^ (floorLog2 d + 1) := by exact_mod_cast hd2
  have h2 : (2 : ℚ) ≠ 0 := by norm_num
  have hpa : (0 : ℚ) < 2 ^ (floorLog2 n) := by positivity
  have hpb : (0 : ℚ) < 2 ^ (floorLog2 d) := by positivity
  -- the quotient lies strictly between `2 ^ (k - 1)` and `2 ^ (k + 1)`
  have hup : (n : ℚ) / d < (2 : ℚ) ^ ((floorLog2 n : ℤ) - (floorLog2 d : ℤ) + 1) := by
    rw [div_lt_iff₀ hdq]
    have e : (2 : ℚ) ^ ((floorLog2 n : ℤ) - (floorLog2 d : ℤ) + 1)
        = 2 ^ (floorLog2 n + 1) / 2 ^ (floorLog2 d) := by
      rw [show (floorLog2 n : ℤ) - (floorLog2 d : ℤ) + 1
        = ((floorLog2 n + 1 : ℕ) : ℤ) - ((floorLog2 d : ℕ) : ℤ) by push_cast; ring]
      rw [zpow_sub₀ h2, zpow_natCast, zpow_natCast]
    rw [e, div_mul_eq_mul_div, lt_div_iff₀ hpb]
    calc (n : ℚ) * 2 ^ floorLog2 d < 2 ^ (floorLog2 n + 1) * 2 ^ floorLog2 d := by
          exact mul_lt_mul_of_pos_right hn2q hpb
      _ ≤ 2 ^ (floorLog2 n + 1) * d := by
          exact mul_le_mul_of_nonneg_left hd1q (by positivity)
  have hlow : (2 : ℚ) ^ ((floorLog2 n : ℤ) - (floorLog2 d : ℤ) - 1) ≤ (n : ℚ) / d := by
    rw [le_div_iff₀ hdq]
    have e : (2 : ℚ) ^ ((floorLog2 n : ℤ) - (floorLog2 d : ℤ) - 1)
        = 2 ^ (floorLog2 n) / 2 ^ (floorLog2 d + 1) := by
      rw [show (floorLog2 n : ℤ) - (floorLog2 d : ℤ) - 1
        = ((floorLog2 n : ℕ) : ℤ) - ((floorLog2 d + 1 : ℕ) : ℤ) by push_cast; ring]
      rw [zpow_sub₀ h2, zpow_natCast, zpow_natCast]
    have hpb' : (0 : ℚ) < 2 ^ (floorLog2 d + 1) := by positivity
    rw [e, div_mul_eq_mul_div, div_le_iff₀ hpb']
    calc (2 : ℚ) ^ floorLog2 n * d ≤ 2 ^ floorLog2 n * 2 ^ (floorLog2 d + 1) := by
          exact mul_le_mul_of_nonneg_left hd2q.le (by positivity)
      _ ≤ n * 2 ^ (floorLog2 d + 1) := by
          exact mul_le_mul_of_nonneg_right hn1q (by positivity)
  unfold binade
  simp only []
  by_cases hp : pow2Le ((floorLog2 n : ℤ) - (floorLog2 d : ℤ)) n d = true
  · rw [if_pos hp]
    exact ⟨(pow2Le_iff _ n d hd).mp hp, hup⟩
  · rw [if_neg hp]
    have hnot : ¬ ((2 : ℚ) ^ ((floorLog2 n : ℤ) - (floorLog2 d : ℤ)) ≤ (n : ℚ) / d) :=
      fun h => hp ((pow2Le_iff _ n d hd).mpr h)
    refine ⟨hlow, ?_⟩
    rw [sub_add_cancel]
    exact not_le.mp hnot

theorem roundHalfEven_near (n d : ℕ) (hd : 0 < d) :
    |(n : ℚ) / d - (roundHalfEven n d : ℚ)| ≤ 1 / 2 := by
  have hdq : (0 : ℚ) < d := by exact_mod_cast hd
  have hsplit : (n : ℚ) = (d : ℚ) * ((n / d : ℕ) : ℚ) + ((n % d : ℕ) : ℚ) := by
    exact_mod_cast (Nat.div_add_mod n d).symm
  have hr : ((n % d : ℕ) : ℚ) < d := by exact_mod_cast Nat.mod_lt n hd
  have hr0 : (0 : ℚ) ≤ ((n % d : ℕ) : ℚ) := Nat.cast_nonneg _
  have hq : (n : ℚ) / d = ((n / d : ℕ) : ℚ) + ((n % d : ℕ) : ℚ) / d := by
    field_simp
    linarith
  have hfrac0 : (0 : ℚ) ≤ ((n % d : ℕ) : ℚ) / d := div_nonneg hr0 hdq.le
  have hfrac1 : ((n % d : ℕ) : ℚ) / d < 1 := (div_lt_one hdq).mpr hr
  have hdown : 2 * (n % d) ≤ d → |(n : ℚ) / d - ((n / d : ℕ) : ℚ)| ≤ 1 / 2 := by
    intro h
    have h' : (2 : ℚ) * ((n % d : ℕ) : ℚ) ≤ d := by exact_mod_cast h
    have : ((n % d : ℕ) : ℚ) / d ≤ 1 / 2 := by
      rw [div_le_iff₀ hdq]; linarith
    rw [hq, abs_le]
    constructor <;> linarith
  have hupw : d ≤ 2 * (n % d) → |(n : ℚ) / d - ((n / d + 1 : ℕ) : ℚ)| ≤ 1 / 2 := by
    intro h
    have h' : (d : ℚ) ≤ 2 * ((n % d : ℕ) : ℚ) := by exact_mod_cast h
    have : 1 / 2 ≤ ((n % d : ℕ) : ℚ) / d := by
      rw [le_div_iff₀ hdq]; linarith
    rw [hq, abs_le]
    push_cast
    constructor <;> linarith
  unfold roundHalfEven
  simp only []
  split_ifs with h1 h2 h3
  · exact hdown (by omega)
  · exact hupw (by omega)
  · exact hdown (by omega)
  · exact hupw (by omega)

/-- The rounding is to a nearest multiple of the quantum: for `x > 0` with
binary exponent `e`, `roundBinary64 x` is a natural multiple of
`2 ^ (max e (-1022) - 52)` at distance at most half of it from `x`. -/
theorem roundBinary64_near (x : ℚ) (hx : 0 < x) :
    ∃ e : ℤ, ∃ m : ℕ, (2 : ℚ) ^ e ≤ x ∧ x < (2 : ℚ) ^ (e + 1) ∧
      roundBinary64 x = (m : ℚ) * (2 : ℚ) ^ (max e (-1022) - 52) ∧
      |x - roundBinary64 x| ≤ (2 : ℚ) ^ (max e (-1022) - 52) / 2 := by
  have hnum : 0 < x.num := Rat.num_pos.mpr hx
  have hn : 0 < x.num.natAbs := Int.natAbs_pos.mpr (ne_of_gt hnum)
  have hd : 0 < x.den := x.den_pos
  have hdq : (0 : ℚ) < x.den := by exact_mod_cast hd
  have hxeq : x = (x.num.natAbs : ℚ) / x.den := by
    have h2 : (x.num.natAbs : ℚ) = (x.num : ℚ) := by
      rw [Nat.cast_natAbs, abs_of_pos hnum]
    rw [h2]
    exact (Rat.num_div_den x).symm
  obtain ⟨he1, he2⟩ := binade_spec x.num.natAbs x.den hn hd
  rw [← hxeq] at he1 he2
  refine ⟨binade x.num.natAbs x.den, ?_⟩
  have hval : roundBinary64 x
      = if 0 ≤ max (binade x.num.natAbs x.den) (-1022) - 52 then
          ((roundHalfEven x.num.natAbs
              (x.den * 2 ^ (max (binade x.num.natAbs x.den) (-1022) - 52).toNat)
            * 2 ^ (max (binade x.num.natAbs x.den) (-1022) - 52).toNat : ℕ) : ℚ)
        else
          ((roundHalfEven
              (x.num.natAbs * 2 ^ (-(max (binade x.num.natAbs x.den) (-1022) - 52)).toNat)
              x.den : ℕ) : ℚ)
            / ((2 ^ (-(max (binade x.num.natAbs x.den) (-1022) - 52)).toNat : ℕ) : ℚ) := by
    unfold roundBinary64
    rw [if_neg (ne_of_gt hx)]
    simp only []
    rw [if_neg (not_lt.mpr hx.le)]
  generalize max (binade x.num.natAbs x.den) (-1022) - 52 = q at hval
  by_cases hq : 0 ≤ q
  · rw [if_pos hq] at hval
    obtain ⟨j, rfl⟩ := Int.eq_ofNat_of_zero_le hq
    rw [Int.toNat_natCast] at hval
    have hp : (0 : ℚ) < 2 ^ j := by positivity
    have hD : 0 < x.den * 2 ^ j := Nat.mul_pos hd (by positivity)
    have hnear := roundHalfEven_near x.num.natAbs (x.den * 2 ^ j) hD
    refine ⟨roundHalfEven x.num.natAbs (x.den * 2 ^ j), he1, he2, ?_, ?_⟩
    · rw [hval, zpow_natCast]; push_cast; ring
    · rw [hval, zpow_natCast]
      push_cast
      push_cast at hnear
      have hx2 : (x.num.natAbs : ℚ) / ((x.den : ℚ) * 2 ^ j) = x / 2 ^ j := by
        rw [← div_div, ← hxeq]
      rw [hx2] at hnear
      have : x - (roundHalfEven x.num.natAbs (x.den * 2 ^ j) : ℚ) * 2 ^ j
          = (x / 2 ^ j - (roundHalfEven x.num.natAbs (x.den * 2 ^ j) : ℚ)) * 2 ^ j := by
        field_simp
        ring
      rw [this, abs_mul, abs_of_pos hp]
      calc |x / 2 ^ j - (roundHalfEven x.num.natAbs (x.den * 2 ^ j) : ℚ)| * 2 ^ j
          ≤ 1 / 2 * 2 ^ j := mul_le_mul_of_nonneg_right hnear hp.le
        _ = 2 ^ j / 2 := by ring
  · rw [if_neg hq] at hval
    have hq' : 0 ≤ -q := by omega
    obtain ⟨j, hj⟩ := Int.eq_ofNat_of_zero_le hq'
    have hqj : q = -(j : ℤ) := by omega
    rw [hj, Int.toNat_natCast] at hval
    have hp : (0 : ℚ) < 2 ^ j := by positivity
    have hnear := roundHalfEven_near (x.num.natAbs * 2 ^ j) x.den hd
    refine ⟨roundHalfEven (x.num.natAbs * 2 ^ j) x.den, he1, he2, ?_, ?_⟩
    · rw [hval, hqj, zpow_neg, zpow_natCast]; push_cast; ring
    · rw [hval, hqj, zpow_neg, zpow_natCast]
      push_cast
      push_cast at hnear
      have hx2 : (x.num.natAbs : ℚ) * 2 ^ j / (x.den : ℚ) = x * 2 ^ j := by
        rw [mul_div_right_comm, ← hxeq]
      rw [hx2] at hnear
      have : x - (roundHalfEven (x.num.natAbs * 2 ^ j) x.den : ℚ) / 2 ^ j
          = (x * 2 ^ j - (roundHalfEven (x.num.natAbs * 2 ^ j) x.den : ℚ)) / 2 ^ j := by
        field_simp
      rw [this, abs_div, abs_of_pos hp, div_le_iff₀ hp]
      calc |x * 2 ^ j - (roundHalfEven (x.num.natAbs * 2 ^ j) x.den : ℚ)|
          ≤ 1 / 2 := hnear
        _ = (2 ^ j)⁻¹ / 2 * 2 ^ j := by field_simp

theorem roundBinary64_nonneg (x : ℚ) (h : 0 ≤ x) : 0 ≤ roundBinary64 x := by
  unfold roundBinary64
  by_cases h0 : x = 0
  · rw [if_pos h0]
  · rw [if_neg h0]
    simp only []
    rw [if_neg (not_lt.mpr h)]
    split_ifs with hq
    · exact Nat.cast_nonneg _
    · exact div_nonneg (Nat.cast_nonneg _) (Nat.cast_nonneg _)

/-- The numbers written `0.1`, `0.7`, `4.1` and `1/3` round to their known
binary64 values, binary64 values are kept, and a tie goes to the even
neighbour, also among the subnormal numbers. -/
theorem roundBinary64_values :
    roundBinary64 (1 / 10) = 3602879701896397 / 2 ^ 55 ∧
    roundBinary64 (7 / 10) = number07 ∧
    roundBinary64 (41 / 10) = number41 ∧
    roundBinary64 (1 / 3) = 6004799503160661 / 2 ^ 54 ∧
    roundBinary64 number07 = number07 ∧
    roundBinary64 number41 = number41 ∧
    roundBinary64 (351 / 2) = 351 / 2 ∧
    roundBinary64 (2 ^ 53 + 1) = 2 ^ 53 ∧
    roundBinary64 (2 ^ 53 + 3) = 2 ^ 53 + 4 ∧
    roundBinary64 (-(7 / 10)) = -number07 ∧
    roundBinary64 (1 / 2 ^ 1075) = 0 ∧
    roundBinary64 (3 / 2 ^ 1075) = 1 / 2 ^ 1073 := by
  decide!

/-- The claim C9 as stated fails on the code.  With body damage 5 and fire
rate `0.7` the exact product of the two numbers is `3.5 - 2 ^ (-52)`, whose
nearest integer is 3, while the binary64 product is `3.5` and the code
returns 4.  Read in decimal instead, body damage 15 and fire rate `4.1` have
the product 61.5 and nearest integer 62, while the code returns 61. -/
theorem calcDps_not_nearest_exact :
    (0 : ℚ) ≤ 5 ∧ 0 < number07 ∧ roundBinary64 number07 = number07 ∧
    (5 : ℚ) * number07 = 7 / 2 - 1 / 2 ^ 52 ∧
    roundBinary64 (5 * number07) = 7 / 2 ∧
    calcDps 5 number07 = 4 ∧
    ⌊(5 : ℚ) * number07 + 1 / 2⌋ = 3 ∧
    calcDps 5 number07 ≠ ⌊(5 : ℚ) * number07 + 1 / 2⌋ ∧
    roundBinary64 (41 / 10) = number41 ∧
    calcDps 15 number41 = 61 ∧
    ⌊(15 : ℚ) * (41 / 10) + 1 / 2⌋ = 62 := by
  have h3 : ⌊(5 : ℚ) * number07 + 1 / 2⌋ = 3 := by
    rw [Int.floor_eq_iff]
    constructor <;> norm_num [number07]
  have h4 : calcDps 5 number07 = 4 := by decide!
  have h62 : ⌊(15 : ℚ) * (41 / 10) + 1 / 2⌋ = 62 := by
    rw [Int.floor_eq_iff]
    constructor <;> norm_num
  refine ⟨by norm_num, by norm_num [number07], by decide!, by norm_num [number07],
    by decide!, h4, h3, ?_, by decide!, by decide!, h62⟩
  rw [h3, h4]
  decide

/-- C9, amended: for body damage `b ≥ 0` and fire rate `f > 0` whose product
is in the finite binary64 range, `calcDps b f` is the integer nearest to the
binary64 product of `b` and `f`, a tie rounded up (away from zero), that is
`⌊roundBinary64 (b * f) + 1/2⌋`, and it is non-negative; when the exact
product `b * f` is itself a binary64 number this is the integer nearest to
`b * f`, that is `⌊b * f + 1/2⌋`. -/
theorem calcDps_nearest (b f : ℚ) (hb : 0 ≤ b) (hf : 0 < f) (_hfin : b * f < 2 ^ 1023) :
    calcDps b f = ⌊roundBinary64 (b * f) + 1 / 2⌋ ∧
    0 ≤ calcDps b f ∧
    (∀ n : ℤ, |roundBinary64 (b * f) - (calcDps b f : ℚ)|
        ≤ |roundBinary64 (b * f) - (n : ℚ)|) ∧
    (∀ n : ℤ, |roundBinary64 (b * f) - (n : ℚ)|
        = |roundBinary64 (b * f) - (calcDps b f : ℚ)| → n ≤ calcDps b f) ∧
    (roundBinary64 (b * f) = b * f →
      calcDps b f = ⌊b * f + 1 / 2⌋ ∧
      (∀ n : ℤ, |b * f - (calcDps b f : ℚ)| ≤ |b * f - (n : ℚ)|) ∧
      (∀ n : ℤ, |b * f - (n : ℚ)| = |b * f - (calcDps b f : ℚ)| → n ≤ calcDps b f)) := by
  have hfloor : calcDps b f = ⌊roundBinary64 (b * f) + 1 / 2⌋ := mathRound_eq_floor _
  have hnear : ∀ n : ℤ, |roundBinary64 (b * f) - (calcDps b f : ℚ)|
      ≤ |roundBinary64 (b * f) - (n : ℚ)| := fun n => mathRound_nearest _ n
  have htie : ∀ n : ℤ, |roundBinary64 (b * f) - (n : ℚ)|
      = |roundBinary64 (b * f) - (calcDps b f : ℚ)| → n ≤ calcDps b f :=
    fun n h => mathRound_tie _ n h
  refine ⟨hfloor, ?_, hnear, htie, ?_⟩
  · rw [hfloor]
    apply Int.floor_nonneg.mpr
    have := roundBinary64_nonneg (b * f) (mul_nonneg hb hf.le)
    linarith
  · intro hex
    rw [hex] at hfloor hnear htie
    exact ⟨hfloor, hnear, htie⟩

/-- The Classic record: body 26, fire rate 6.75; the product 175.5 is a
binary64 number and the DPS is 176. -/
theorem calcDps_classic :
    classic.damage.body * classic.fireRate = 351 / 2 ∧
    roundBinary64 (classic.damage.body * classic.fireRate) = 351 / 2 ∧
    calcDps classic.damage.body classic.fireRate = 176 := by
  have hprod : classic.damage.body * classic.fireRate = 351 / 2 := by norm_num [classic]
  have hex : roundBinary64 (classic.damage.body * classic.fireRate)
      = classic.damage.body * classic.fireRate := by decide!
  have h := ((calcDps_nearest classic.damage.body classic.fireRate (by norm_num [classic])
    (by norm_num [classic]) (by norm_num [classic])).2.2.2.2 hex).1
  refine ⟨hprod, hex.trans hprod, ?_⟩
  rw [h, hprod, Int.floor_eq_iff]
  constructor <;> norm_num

/-! ## Filter stage -/

theorem includes_iff_infix (s q : String) : includes s q = true ↔ q.data <:+: s.data := by
  unfold includes
  rw [List.any_eq_true, List.infix_iff_prefix_suffix]
  constructor
  · rintro ⟨t, ht, hp⟩
    exact ⟨t, List.isPrefixOf_iff_prefix.mp hp, (List.mem_tails _ _).mp ht⟩
  · rintro ⟨t, hp, ht⟩
    exact ⟨t, (List.mem_tails _ _).mpr ht, List.isPrefixOf_iff_prefix.mpr hp⟩

theorem filterCategory_eq_filter (weapons : List Weapon) (category : String) :
    filterCategory weapons category
      = weapons.filter (fun r => decide (category = "All" ∨ r.category = category)) := by
  unfold filterCategory
  split_ifs with h
  · simp [h]
  · simp [h]

theorem trim_of_whiteSpace (query : String) (h : ∀ c ∈ query.data, isWhiteSpace c = true) :
    trim query = "" := by
  have h1 : query.data.dropWhile isWhiteSpace = [] := List.dropWhile_eq_nil_iff.mpr h
  unfold trim
  rw [h1]
  rfl

theorem filtered_eq_filter (weapons : List Weapon) (category query : String) :
    filtered weapons category query
      = weapons.filter (fun r => decide ((category = "All" ∨ r.category = category) ∧
          (toLowerCase (trim query)).data <:+: (toLowerCase r.name).data)) := by
  unfold filtered
  rw [filterCategory_eq_filter]
  by_cases hq : truthy (toLowerCase (trim query)) = true
  · simp only [hq, if_true, List.filter_filter]
    apply List.filter_congr
    intro r _
    rw [Bool.eq_iff_iff]
    simp only [Bool.and_eq_true, decide_eq_true_eq, includes_iff_infix]
    tauto
  · simp only [hq]
    have hnil : (toLowerCase (trim query)).data = [] := by
      simpa [truthy] using hq
    apply List.filter_congr
    intro r _
    rw [Bool.eq_iff_iff]
    simp only [decide_eq_true_eq, hnil]
    constructor
    · intro h
      exact ⟨h, List.nil_infix⟩
    · intro h
      exact h.1

/-- C1: with `sortColumn` unset the displayed list is the catalog restricted,
in catalog order, to the records whose category is selected (or any, for
"All") and whose lower-cased name contains the trimmed, lower-cased query;
a query of white space only matches every record; "All" with the empty
query gives the whole catalog; and "Rifle" with "phantom" keeps only the
rifle "Phantom" of a catalog that also holds the sniper "Phantom-X". -/
theorem list_unsorted_spec (weapons : List Weapon) (category query : String)
    (sortOrder : SortOrder) :
    list weapons category query none sortOrder
      = weapons.filter (fun r => decide ((category = "All" ∨ r.category = category) ∧
          (toLowerCase (trim query)).data <:+: (toLowerCase r.name).data)) ∧
    ((∀ c ∈ query.data, isWhiteSpace c = true) →
      list weapons category query none sortOrder
        = weapons.filter (fun r => decide (category = "All" ∨ r.category = category))) ∧
    list weapons "All" "" none sortOrder = weapons ∧
    list [phantom, phantomX] "Rifle" "phantom" none sortOrder = [phantom] := by
  refine ⟨filtered_eq_filter weapons category query, ?_, ?_, ?_⟩
  · intro h
    show filtered weapons category query = _
    rw [filtered_eq_filter, trim_of_whiteSpace query h]
    apply List.filter_congr
    intro r _
    rw [Bool.eq_iff_iff]
    simp only [decide_eq_true_eq]
    constructor
    · intro h; exact h.1
    · intro h; exact ⟨h, List.nil_infix⟩
  · show filtered weapons "All" "" = weapons
    rw [filtered_eq_filter]
    have : ∀ r : Weapon, (toLowerCase (trim "")).data <:+: (toLowerCase r.name).data :=
      fun r => List.nil_infix
    simp [this]
  · show filtered [phantom, phantomX] "Rifle" "phantom" = [phantom]
    decide

/-! ## The stable sort -/

theorem arraySort_perm {α : Type} (cmp : α → α → ℚ) (xs : List α) :
    (arraySort cmp xs).Perm xs :=
  List.perm_insertionSort _ xs

theorem arraySort_length {α : Type} (cmp : α → α → ℚ) (xs : List α) :
    (arraySort cmp xs).length = xs.length :=
  (arraySort_perm cmp xs).length_eq

theorem arraySort_sorted {α : Type} (cmp : α → α → ℚ) (key : α → ℚ)
    (h : ∀ a b, cmp a b ≤ 0 ↔ key a ≤ key b) (xs : List α) :
    (arraySort cmp xs).Pairwise (fun a b => key a ≤ key b) := by
  haveI : IsTotal α (fun a b => cmp a b ≤ 0) :=
    ⟨fun a b => by simp only [h]; exact le_total _ _⟩
  haveI : IsTrans α (fun a b => cmp a b ≤ 0) :=
    ⟨fun a b c => by simp only [h]; exact le_trans⟩
  have hs : (arraySort cmp xs).Pairwise (fun a b => cmp a b ≤ 0) :=
    List.sorted_insertionSort (fun a b => cmp a b ≤ 0) xs
  exact hs.imp (fun hab => (h _ _).mp hab)

theorem arraySort_stable {α : Type} (cmp : α → α → ℚ) (key : α → ℚ)
    (h : ∀ a b, cmp a b ≤ 0 ↔ key a ≤ key b) (xs : List α) (v : ℚ) :
    (arraySort cmp xs).filter (fun a => decide (key a = v))
      = xs.filter (fun a => decide (key a = v)) := by
  have hpw : (xs.filter (fun a => decide (key a = v))).Pairwise (fun a b => cmp a b ≤ 0) := by
    rw [List.pairwise_iff_forall_sublist]
    intro a b hab
    have ha : a ∈ xs.filter (fun a => decide (key a = v)) := hab.subset (by simp)
    have hb : b ∈ xs.filter (fun a => decide (key a = v)) := hab.subset (by simp)
    rw [List.mem_filter, decide_eq_true_eq] at ha hb
    rw [h, ha.2, hb.2]
  have hsub : List.Sublist (xs.filter (fun a => decide (key a = v))) (arraySort cmp xs) :=
    List.sublist_insertionSort hpw (List.filter_sublist xs)
  have hsub2 := hsub.filter (fun a => decide (key a = v))
  rw [List.filter_filter] at hsub2
  simp only [Bool.and_self] at hsub2
  have hlen := ((arraySort_perm cmp xs).filter (fun a => decide (key a = v))).length_eq
  exact (hsub2.eq_of_length hlen.symm).symm

/-! ## Chart stage: size -/

theorem slice_zero_length {α : Type} (xs : List α) (stop : ℤ) (h : 0 ≤ stop) :
    ((slice xs 0 stop).length : ℤ) = min stop xs.length := by
  unfold slice
  have h0 : ¬ ((0 : ℤ) < 0) := lt_irrefl 0
  have h1 : ¬ (stop < 0) := not_lt.mpr h
  simp only [h0, h1, if_false]
  have hk : min (0 : ℤ) (xs.length : ℤ) = 0 := min_eq_left (Int.natCast_nonneg _)
  rw [hk]
  simp only [Int.toNat_zero, List.drop_zero, sub_zero, List.length_take]
  omega

/-- C4: for every displayed list `L` and every integer `chartTopN`, the chart
data is empty when `L` is empty and has `max 1 (min chartTopN |L|)` entries
otherwise; so it never has more entries than `L`, and at least one when `L`
is not empty. -/
theorem chartData_length (L : List Weapon) (chartTopN : ℤ) :
    ((chartData L chartTopN).length : ℤ)
      = (if L.length = 0 then 0 else max 1 (min chartTopN (L.length : ℤ))) ∧
    (chartData L chartTopN).length ≤ L.length ∧
    (L ≠ [] → 1 ≤ (chartData L chartTopN).length) := by
  have hlen : ((chartData L chartTopN).length : ℤ)
      = min (max 1 (min chartTopN (L.length : ℤ))) (L.length : ℤ) := by
    unfold chartData
    simp only []
    rw [slice_zero_length _ _ (le_trans zero_le_one (le_max_left _ _))]
    rw [arraySort_length, List.length_map]
  have hne : L ≠ [] → L.length ≠ 0 := fun h => by
    rwa [Ne, List.length_eq_zero]
  refine ⟨?_, ?_, ?_⟩
  · rw [hlen]
    split_ifs with h0
    · rw [h0]; simp
    · omega
  · omega
  · intro h
    have := hne h
    omega

/-! ## Sort stage -/

theorem comparator_eq (c : String) (sortOrder : SortOrder) (a b : Weapon) :
    comparator c sortOrder a b
      = if sortOrder = SortOrder.asc then sortKey (some c) a - sortKey (some c) b
        else sortKey (some c) b - sortKey (some c) a := by
  unfold comparator sortValues sortKey
  by_cases h1 : c = "cost"
  · simp only [if_pos h1]
  · simp only [if_neg h1]
    by_cases h2 : c = "fireRate"
    · simp only [if_pos h2]
    · simp only [if_neg h2]
      by_cases h3 : c = "magazine"
      · simp only [if_pos h3]
      · simp only [if_neg h3]
        by_cases h4 : c = "dps"
        · simp only [if_pos h4]
        · simp only [if_neg h4]
          by_cases h5 : c = "headDamage"
          · simp only [if_pos h5]
          · simp only [if_neg h5]
            by_cases h6 : c = "bodyDamage"
            · simp only [if_pos h6]
            · simp only [if_neg h6]
              by_cases h7 : c = "legDamage"
              · simp only [if_pos h7]
              · simp only [if_neg h7, sub_self, ite_self]


theorem list_perm_filtered (weapons : List Weapon) (category query : String)
    (sortColumn : Option String) (sortOrder : SortOrder) :
    (list weapons category query sortColumn sortOrder).Perm (filtered weapons category query) := by
  unfold list
  cases sortColumn with
  | none => exact List.Perm.refl _
  | some c =>
    simp only []
    split_ifs
    · exact arraySort_perm _ _
    · exact List.Perm.refl _

theorem comparator_le_iff_asc (c : String) (a b : Weapon) :
    comparator c SortOrder.asc a b ≤ 0 ↔ sortKey (some c) a ≤ sortKey (some c) b := by
  rw [comparator_eq, if_pos rfl, sub_nonpos]

theorem comparator_le_iff_desc (c : String) (a b : Weapon) :
    comparator c SortOrder.desc a b ≤ 0
      ↔ -sortKey (some c) a ≤ -sortKey (some c) b := by
  rw [comparator_eq, if_neg (by decide), sub_nonpos, neg_le_neg_iff]

theorem sortKey_of_not_truthy (c : String) (h : ¬ (truthy c = true)) (w : Weapon) :
    sortKey (some c) w = 0 := by
  have hc : c = "" := by
    have hd : c.data = [] := by simpa [truthy] using h
    cases c
    simp only at hd
    rw [hd]
  subst hc
  rfl

/-- C2: for every sort column the displayed list is a permutation of the
filtered list, with non-decreasing keys of that column when the order is
ascending and non-increasing keys when it is descending; the keys are the
fields `cost`, `fireRate`, `magazine`, `calcDps` of body damage and fire
rate for `dps`, and `damage.head`, `damage.body`, `damage.leg`. -/
theorem list_sorted_spec (weapons : List Weapon) (category query c : String)
    (sortOrder : SortOrder) (w : Weapon) :
    (list weapons category query (some c) sortOrder).Perm (filtered weapons category query) ∧
    (sortOrder = SortOrder.asc →
      (list weapons category query (some c) sortOrder).Pairwise
        (fun a b => sortKey (some c) a ≤ sortKey (some c) b)) ∧
    (sortOrder = SortOrder.desc →
      (list weapons category query (some c) sortOrder).Pairwise
        (fun a b => sortKey (some c) b ≤ sortKey (some c) a)) ∧
    sortKey (some "cost") w = w.cost ∧
    sortKey (some "fireRate") w = w.fireRate ∧
    sortKey (some "magazine") w = w.magazine ∧
    sortKey (some "dps") w = (calcDps w.damage.body w.fireRate : ℚ) ∧
    sortKey (some "headDamage") w = w.damage.head ∧
    sortKey (some "bodyDamage") w = w.damage.body ∧
    sortKey (some "legDamage") w = w.damage.leg := by
  refine ⟨list_perm_filtered _ _ _ _ _, ?_, ?_, rfl, rfl, rfl, rfl, rfl, rfl, rfl⟩
  · intro ho
    subst ho
    unfold list
    simp only []
    split_ifs with ht
    · exact arraySort_sorted _ _ (comparator_le_iff_asc c) _
    · exact List.pairwise_of_forall (fun a b => by
        rw [sortKey_of_not_truthy c ht a, sortKey_of_not_truthy c ht b])
  · intro ho
    subst ho
    unfold list
    simp only []
    split_ifs with ht
    · exact (arraySort_sorted _ _ (comparator_le_iff_desc c) _).imp
        (fun hab => neg_le_neg_iff.mp hab)
    · exact List.pairwise_of_forall (fun a b => by
        rw [sortKey_of_not_truthy c ht a, sortKey_of_not_truthy c ht b])

theorem filtered_sublist (weapons : List Weapon) (category query : String) :
    List.Sublist (filtered weapons category query) weapons := by
  rw [filtered_eq_filter]
  exact List.filter_sublist weapons

theorem list_filter_key (weapons : List Weapon) (category query : String)
    (sortColumn : Option String) (sortOrder : SortOrder) (v : ℚ) :
    (list weapons category query sortColumn sortOrder).filter
        (fun r => decide (sortKey sortColumn r = v))
      = (filtered weapons category query).filter
        (fun r => decide (sortKey sortColumn r = v)) := by
  unfold list
  cases sortColumn with
  | none => rfl
  | some c =>
    simp only []
    split_ifs with ht
    · cases sortOrder with
      | asc => exact arraySort_stable _ _ (comparator_le_iff_asc c) _ v
      | desc =>
        have h := arraySort_stable _ _ (comparator_le_iff_desc c)
          (filtered weapons category query) (-v)
        simpa only [neg_inj] using h
    · rfl

/-- C3: the sort is stable for both orders: for every sort state and every
key value `v`, the records of the displayed list whose sort key is `v` are,
in the same order, those of the filtered list, hence a subsequence of the
catalog; and two records with equal keys that appear in the order `a`, `b`
in the displayed list appear in that order in the catalog. -/
theorem list_stable (weapons : List Weapon) (category query : String)
    (sortColumn : Option String) (sortOrder : SortOrder) (v : ℚ) (a b : Weapon) :
    (list weapons category query sortColumn sortOrder).filter
        (fun r => decide (sortKey sortColumn r = v))
      = (filtered weapons category query).filter
        (fun r => decide (sortKey sortColumn r = v)) ∧
    List.Sublist ((list weapons category query sortColumn sortOrder).filter
        (fun r => decide (sortKey sortColumn r = v))) weapons ∧
    (sortKey sortColumn a = sortKey sortColumn b →
      List.Sublist [a, b] (list weapons category query sortColumn sortOrder) →
      List.Sublist [a, b] weapons) := by
  have hsub : ∀ u : ℚ, List.Sublist ((list weapons category query sortColumn sortOrder).filter
      (fun r => decide (sortKey sortColumn r = u))) weapons := by
    intro u
    rw [list_filter_key]
    exact (List.filter_sublist _).trans (filtered_sublist weapons category query)
  refine ⟨list_filter_key _ _ _ _ _ v, hsub v, ?_⟩
  intro hab hl
  have h1 := hl.filter (fun r => decide (sortKey sortColumn r = sortKey sortColumn b))
  have h2 : [a, b].filter (fun r => decide (sortKey sortColumn r = sortKey sortColumn b))
      = [a, b] := by
    simp [hab]
  rw [h2] at h1
  exact h1.trans (hsub _)

/-- The stable order at work: sorting two records of equal DPS by `dps`,
ascending or descending, keeps the catalog order. -/
theorem list_stable_tie :
    list [tieA, tieB] "All" "" (some "dps") SortOrder.asc = [tieA, tieB] ∧
    list [tieA, tieB] "All" "" (some "dps") SortOrder.desc = [tieA, tieB] ∧
    List.Sublist [tieA, tieB] [tieA, tieB] :=
  ⟨by decide!, by decide!,
    (list_stable [tieA, tieB] "All" "" (some "dps") SortOrder.desc 50 tieA tieB).2.2
      (by decide!) (by decide!)⟩

/-! ## Chart stage: content -/

theorem slice_zero_eq_take {α : Type} (xs : List α) (stop : ℤ) (h : 0 ≤ stop) :
    slice xs 0 stop = xs.take (min stop (xs.length : ℤ)).toNat := by
  unfold slice
  have h0 : ¬ ((0 : ℤ) < 0) := lt_irrefl 0
  have h1 : ¬ (stop < 0) := not_lt.mpr h
  simp only [h0, h1, if_false]
  have hk : min (0 : ℤ) (xs.length : ℤ) = 0 := min_eq_left (Int.natCast_nonneg _)
  rw [hk]
  simp only [Int.toNat_zero, List.drop_zero, sub_zero]

/-- The chart's comparator `b.dps - a.dps` written over `ℚ`. -/
theorem chartCmp_le_iff (a b : ChartEntry) :
    (((b.dps - a.dps : ℤ) : ℚ) ≤ 0) ↔ (-(a.dps : ℚ) ≤ -(b.dps : ℚ)) := by
  rw [neg_le_neg_iff]
  push_cast
  rw [sub_nonpos]

theorem chartSort_sorted (xs : List ChartEntry) :
    (arraySort (fun a b => ((b.dps - a.dps : ℤ) : ℚ)) xs).Pairwise
      (fun a b => b.dps ≤ a.dps) := by
  have h := arraySort_sorted (fun a b : ChartEntry => ((b.dps - a.dps : ℤ) : ℚ))
    (fun a => -(a.dps : ℚ)) chartCmp_le_iff xs
  exact h.imp (fun hab => by exact_mod_cast neg_le_neg_iff.mp hab)

theorem chartData_eq_take (L : List Weapon) (chartTopN : ℤ) :
    ∃ m : ℕ, chartData L chartTopN
      = (arraySort (fun a b => ((b.dps - a.dps : ℤ) : ℚ)) (L.map chartEntry)).take m ∧
      m = (min (max 1 (min chartTopN (L.length : ℤ))) (L.length : ℤ)).toNat := by
  refine ⟨_, ?_, rfl⟩
  unfold chartData
  simp only []
  rw [slice_zero_eq_take _ _ (le_trans zero_le_one (le_max_left _ _))]
  rw [arraySort_length, List.length_map]

/-- C5: the chart data is the top-N by DPS of the displayed list: its entries
are `{id, name, category, dps}` of records of the displayed list with
`dps = calcDps(damage.body, fireRate)`; together with a remainder `rest` it
is a rearrangement of the entries of the whole displayed list (so distinct
chart entries come from distinct positions); it is in descending DPS order;
and no entry left out has a DPS above that of a chart entry. -/
theorem chartData_topN (weapons : List Weapon) (category query : String)
    (sortColumn : Option String) (sortOrder : SortOrder) (chartTopN : ℤ) :
    (∀ r : Weapon, chartEntry r
        = { id := r.id, name := r.name, category := r.category,
            dps := calcDps r.damage.body r.fireRate }) ∧
    (∀ e ∈ chartData (list weapons category query sortColumn sortOrder) chartTopN,
        ∃ r ∈ list weapons category query sortColumn sortOrder, e = chartEntry r) ∧
    (chartData (list weapons category query sortColumn sortOrder) chartTopN).Pairwise
        (fun a b => b.dps ≤ a.dps) ∧
    ∃ rest : List ChartEntry,
      (chartData (list weapons category query sortColumn sortOrder) chartTopN ++ rest).Perm
          ((list weapons category query sortColumn sortOrder).map chartEntry) ∧
      ∀ e ∈ chartData (list weapons category query sortColumn sortOrder) chartTopN,
        ∀ x ∈ rest, x.dps ≤ e.dps := by
  obtain ⟨m, hm, _⟩ := chartData_eq_take (list weapons category query sortColumn sortOrder)
    chartTopN
  have hsorted := chartSort_sorted ((list weapons category query sortColumn sortOrder).map
    chartEntry)
  have hperm := arraySort_perm (fun a b : ChartEntry => ((b.dps - a.dps : ℤ) : ℚ))
    ((list weapons category query sortColumn sortOrder).map chartEntry)
  rw [hm]
  refine ⟨fun r => rfl, ?_, ?_, ?_⟩
  · intro e he
    have h1 : e ∈ (list weapons category query sortColumn sortOrder).map chartEntry :=
      hperm.subset (List.mem_of_mem_take he)
    obtain ⟨r, hr, hre⟩ := List.mem_map.mp h1
    exact ⟨r, hr, hre.symm⟩
  · exact hsorted.sublist (List.take_sublist _ _)
  · refine ⟨(arraySort (fun a b => ((b.dps - a.dps : ℤ) : ℚ))
      ((list weapons category query sortColumn sortOrder).map chartEntry)).drop m, ?_, ?_⟩
    · rw [List.take_append_drop]
      exact hperm
    · intro e he x hx
      rw [← List.take_append_drop m (arraySort _ _), List.pairwise_append] at hsorted
      exact hsorted.2.2 e he x hx

/-! ## Chart stage and table sort -/

theorem chartSort_dps_eq_of_perm (xs ys : List ChartEntry) (h : xs.Perm ys) :
    (arraySort (fun a b => ((b.dps - a.dps : ℤ) : ℚ)) xs).map (fun e => e.dps)
      = (arraySort (fun a b => ((b.dps - a.dps : ℤ) : ℚ)) ys).map (fun e => e.dps) := by
  have hp : (arraySort (fun a b : ChartEntry => ((b.dps - a.dps : ℤ) : ℚ)) xs).Perm
      (arraySort (fun a b : ChartEntry => ((b.dps - a.dps : ℤ) : ℚ)) ys) :=
    (arraySort_perm _ xs).trans (h.trans (arraySort_perm _ ys).symm)
  have hx : ((arraySort (fun a b : ChartEntry => ((b.dps - a.dps : ℤ) : ℚ)) xs).map
      (fun e => e.dps)).Sorted (fun a b : ℤ => a ≥ b) :=
    List.pairwise_map.mpr (chartSort_sorted xs)
  have hy : ((arraySort (fun a b : ChartEntry => ((b.dps - a.dps : ℤ) : ℚ)) ys).map
      (fun e => e.dps)).Sorted (fun a b : ℤ => a ≥ b) :=
    List.pairwise_map.mpr (chartSort_sorted ys)
  exact List.eq_of_perm_of_sorted (hp.map _) hx hy

theorem chartSort_eq_of_perm (xs ys : List ChartEntry) (h : xs.Perm ys)
    (hnd : (xs.map (fun e => e.dps)).Nodup) :
    arraySort (fun a b => ((b.dps - a.dps : ℤ) : ℚ)) xs
      = arraySort (fun a b => ((b.dps - a.dps : ℤ) : ℚ)) ys := by
  have hp : (arraySort (fun a b : ChartEntry => ((b.dps - a.dps : ℤ) : ℚ)) xs).Perm
      (arraySort (fun a b : ChartEntry => ((b.dps - a.dps : ℤ) : ℚ)) ys) :=
    (arraySort_perm _ xs).trans (h.trans (arraySort_perm _ ys).symm)
  have hstrict : ∀ zs : List ChartEntry, zs.Perm xs →
      (arraySort (fun a b : ChartEntry => ((b.dps - a.dps : ℤ) : ℚ)) zs).Pairwise
        (fun a b => b.dps < a.dps) := by
    intro zs hz
    have hn : ((arraySort (fun a b : ChartEntry => ((b.dps - a.dps : ℤ) : ℚ)) zs).map
        (fun e => e.dps)).Nodup :=
      ((((arraySort_perm _ zs).trans hz).map (fun e => e.dps)).nodup_iff).mpr hnd
    have hne : (arraySort (fun a b : ChartEntry => ((b.dps - a.dps : ℤ) : ℚ)) zs).Pairwise
        (fun a b => a.dps ≠ b.dps) := List.pairwise_map.mp hn
    exact ((chartSort_sorted zs).and hne).imp (fun hab => lt_of_le_of_ne hab.1 (Ne.symm hab.2))
  haveI : IsAntisymm ChartEntry (fun a b => b.dps < a.dps) :=
    ⟨fun a b hab hba => absurd hab (not_lt.mpr (le_of_lt hba))⟩
  exact List.eq_of_perm_of_sorted hp (hstrict xs (List.Perm.refl _)) (hstrict ys h.symm)

/-- The chart data is not the same for every table sort: two records of equal
DPS are charted in catalog order when the table is unsorted and in the
opposite order when the table is sorted by ascending cost. -/
theorem chartData_depends_on_sort :
    chartData (list [tieA, tieB] "All" "" none SortOrder.asc) 10
      ≠ chartData (list [tieA, tieB] "All" "" (some "cost") SortOrder.asc) 10 := by
  decide!

/-- C10, amended: for every catalog, category, query and `chartTopN`, the
sequence of DPS values of the chart data is the same for every sort column
and sort order; and when the filtered records have pairwise distinct DPS the
chart data itself, entries in order, is the same for every sort column and
sort order. -/
theorem chartData_sort_independent (weapons : List Weapon) (category query : String)
    (chartTopN : ℤ) (c₁ c₂ : Option String) (o₁ o₂ : SortOrder) :
    (chartData (list weapons category query c₁ o₁) chartTopN).map (fun e => e.dps)
      = (chartData (list weapons category query c₂ o₂) chartTopN).map (fun e => e.dps) ∧
    (((filtered weapons category query).map
          (fun w => calcDps w.damage.body w.fireRate)).Nodup →
      chartData (list weapons category query c₁ o₁) chartTopN
        = chartData (list weapons category query c₂ o₂) chartTopN) := by
  have hp1 := list_perm_filtered weapons category query c₁ o₁
  have hp2 := list_perm_filtered weapons category query c₂ o₂
  have hp : ((list weapons category query c₁ o₁).map chartEntry).Perm
      ((list weapons category query c₂ o₂).map chartEntry) :=
    (hp1.trans hp2.symm).map chartEntry
  obtain ⟨m₁, h₁, hm₁⟩ := chartData_eq_take (list weapons category query c₁ o₁) chartTopN
  obtain ⟨m₂, h₂, hm₂⟩ := chartData_eq_take (list weapons category query c₂ o₂) chartTopN
  have hm : m₁ = m₂ := by
    rw [hm₁, hm₂, hp1.length_eq, hp2.length_eq]
  subst hm
  rw [h₁, h₂]
  constructor
  · rw [List.map_take, List.map_take, chartSort_dps_eq_of_perm _ _ hp]
  · intro hnd
    have hnd' : (((list weapons category query c₁ o₁).map chartEntry).map
        (fun e => e.dps)).Nodup := by
      have : ((list weapons category query c₁ o₁).map chartEntry).map (fun e => e.dps)
          = (list weapons category query c₁ o₁).map
              (fun w => calcDps w.damage.body w.fireRate) := by
        rw [List.map_map]; rfl
      rw [this]
      exact ((hp1.map _).nodup_iff).mpr hnd
    rw [chartSort_eq_of_perm _ _ hp hnd']

/-- The amended C10 at a catalog with distinct DPS values (176, 429, 113). -/
theorem chartData_sort_independent_example :
    chartData (list [classic, phantom, phantomX] "All" "" none SortOrder.asc) 10
      = chartData (list [classic, phantom, phantomX] "All" "" (some "cost") SortOrder.desc) 10 :=
  (chartData_sort_independent [classic, phantom, phantomX] "All" "" 10 none (some "cost")
    SortOrder.asc SortOrder.desc).2 (by decide!)

end WeaponTable
